import Mathlib

/-!
Verification development for the EPUB-to-Markdown chapter extractor
(`main.py`).  Strings are modelled as lists of characters (`Str`); each
definition below shallowly embeds the Python function of the same name.
External collaborators (the EPUB container, BeautifulSoup's parser and the
markdownify renderer) are modelled as parameters: parsing yields a forest of
`Node`s, rendering is an arbitrary fallible function supplied by the
environment.
-/

/-- Characters are modelled as Lean `Char`; Python strings as `List Char`. -/
abbrev Str := List Char

/-- Python's whitespace class (`\s` in `re`, and the default for `str.strip`):
ASCII 9-13, 28-31, space, and the Unicode space characters. -/
def isPyWs (c : Char) : Bool :=
  let n := c.toNat
  (9 ≤ n && n ≤ 13) || (28 ≤ n && n ≤ 31) || n == 32 || n == 133 || n == 160 ||
    n == 0x1680 || (0x2000 ≤ n && n ≤ 0x200a) || n == 0x2028 || n == 0x2029 ||
    n == 0x202f || n == 0x205f || n == 0x3000

/-- ASCII decimal digit (model of `\d`; the claims only involve ASCII digits). -/
def isAsciiDigit (c : Char) : Bool :=
  '0' ≤ c && c ≤ '9'

/-- The characters replaced by `_` in `clean_filename`
(`re.sub(r'[<>:"/\\|?*]', '_', title)`). -/
def badChar (c : Char) : Bool :=
  c == '<' || c == '>' || c == ':' || c == '"' || c == '/' || c == '\\' ||
    c == '|' || c == '?' || c == '*'

/-- Drop trailing characters satisfying `p` (the right half of `str.strip`). -/
def dropTrailWhile (p : Char → Bool) (l : Str) : Str :=
  (l.reverse.dropWhile p).reverse

/-- Python `str.strip()`: drop leading and trailing whitespace. -/
def pyStrip (l : Str) : Str :=
  dropTrailWhile isPyWs (l.dropWhile isPyWs)

/-- State machine for `re.sub(r'\s+', ' ', s)`: the flag records whether the
previous character was whitespace (in which case further whitespace is
swallowed instead of emitting another space). -/
def collapseWsGo : Bool → Str → Str
  | _, [] => []
  | prevWs, c :: rest =>
    if isPyWs c then
      if prevWs then collapseWsGo true rest else ' ' :: collapseWsGo true rest
    else c :: collapseWsGo false rest

/-- `re.sub(r'\s+', ' ', s)`: collapse every whitespace run to one space. -/
def collapseWs (l : Str) : Str := collapseWsGo false l

/-- State machine for `re.sub(r'<[^>]+>', '', title)`.  The `Option` state is
`none` outside a candidate tag and `some acc` after an unmatched `<`, where
`acc` holds the characters seen since the `<` in reverse order.  On `>` a
nonempty accumulator completes a match (all dropped); an empty accumulator
means the regex failed at that `<` (`[^>]+` needs one character), so `<>` is
kept literally.  At end of input an open candidate is kept literally. -/
def removeTagsGo : Option Str → Str → Str
  | none, [] => []
  | none, c :: rest =>
    if c = '<' then removeTagsGo (some []) rest
    else c :: removeTagsGo none rest
  | some acc, [] => '<' :: acc.reverse
  | some acc, c :: rest =>
    if c = '>' then
      if acc = [] then '<' :: '>' :: removeTagsGo none rest
      else removeTagsGo none rest
    else removeTagsGo (some (c :: acc)) rest

/-- `re.sub(r'<[^>]+>', '', title)`: delete HTML-tag-like substrings. -/
def removeTags (l : Str) : Str := removeTagsGo none l

/-- `re.sub(r'[<>:"/\\|?*]', '_', title)`: replace each unsafe character by
one underscore. -/
def replaceBad (l : Str) : Str :=
  l.map fun c => if badChar c then '_' else c

/-- `EPUBProcessor.clean_filename`: strip tag-like substrings, replace
filesystem-unsafe characters with `_`, collapse whitespace runs to single
spaces, trim, and truncate to 100 characters (`title[:100]`). -/
def clean_filename (title : Str) : Str :=
  (pyStrip (collapseWs (replaceBad (removeTags title)))).take 100

/-- The intermediate value of `clean_filename` just before truncation. -/
def clean_filename_pre (title : Str) : Str :=
  pyStrip (collapseWs (replaceBad (removeTags title)))

/-- Detector for two adjacent whitespace characters. -/
def hasWsPair : Str → Bool
  | [] => false
  | [_] => false
  | a :: b :: rest => (isPyWs a && isPyWs b) || hasWsPair (b :: rest)

/-- Detector for three consecutive newline characters (a `\n{3,}` match). -/
def hasNNN : Str → Bool
  | [] => false
  | [_] => false
  | [_, _] => false
  | a :: b :: c :: rest =>
    (a == '\n' && b == '\n' && c == '\n') || hasNNN (b :: c :: rest)

/-- What `re.sub(r'\n{3,}', '\n\n', s)` emits for a pending run of `n`
newlines: the run itself when it is shorter than three, exactly two newlines
otherwise. -/
def emitNl (n : Nat) : Str :=
  if n ≥ 3 then ['\n', '\n'] else List.replicate n '\n'

/-- State machine for `re.sub(r'\n{3,}', '\n\n', s)`: `n` counts the pending
newline run, flushed via `emitNl` at the first non-newline or at the end. -/
def collapseNlGo : Nat → Str → Str
  | n, [] => emitNl n
  | n, c :: rest =>
    if c = '\n' then collapseNlGo (n + 1) rest
    else emitNl n ++ c :: collapseNlGo 0 rest

/-- `re.sub(r'\n{3,}', '\n\n', s)`: collapse newline runs of length ≥ 3 to
exactly two newlines. -/
def collapseNl (l : Str) : Str := collapseNlGo 0 l

/-- The blank-line normalization at the end of `html_to_markdown`: collapse
newline runs of length ≥ 3 to exactly two, then strip the result. -/
def normalizeNewlines (l : Str) : Str := pyStrip (collapseNl l)

/-- A parsed HTML node (BeautifulSoup's tree): an element with a tag name and
children, or a text node.  A parsed document is a forest (`List Node`). -/
inductive Node where
  | elem (tag : Str) (children : List Node)
  | text (s : Str)

mutual
/-- `get_text` of a single node: concatenated text of the subtree. -/
def getTextN : Node → Str
  | .text s => s
  | .elem _ cs => getTextF cs
/-- `get_text` over a forest, in document order. -/
def getTextF : List Node → Str
  | [] => []
  | n :: rest => getTextN n ++ getTextF rest
end

mutual
/-- `soup.find(tag)` on one node: the node itself if its tag matches, else the
first match among its children (document-order preorder search). -/
def findTagN (t : Str) : Node → Option Node
  | .text _ => none
  | .elem tg cs => if tg = t then some (.elem tg cs) else findTagL t cs
/-- `soup.find(tag)` over a forest. -/
def findTagL (t : Str) : List Node → Option Node
  | [] => none
  | n :: rest =>
    match findTagN t n with
    | some x => some x
    | none => findTagL t rest
end

mutual
/-- `soup.find_all(tags)` on one node: all elements (itself included) whose
tag is in `ts`, in document-order preorder. -/
def findAllN (ts : List Str) : Node → List Node
  | .text _ => []
  | .elem tg cs =>
    (if ts.contains tg then [Node.elem tg cs] else []) ++ findAllL ts cs
/-- `soup.find_all(tags)` over a forest. -/
def findAllL (ts : List Str) : List Node → List Node
  | [] => []
  | n :: rest => findAllN ts n ++ findAllL ts rest
end

mutual
/-- `element.decompose()` applied to every element whose tag is in `ts`:
remove those elements together with their subtrees, on one node. -/
def removeKindsN (ts : List Str) : Node → List Node
  | .text s => [Node.text s]
  | .elem tg cs =>
    if ts.contains tg then [] else [Node.elem tg (removeKindsL ts cs)]
/-- Subtree removal over a forest. -/
def removeKindsL (ts : List Str) : List Node → List Node
  | [] => []
  | n :: rest => removeKindsN ts n ++ removeKindsL ts rest
end

/-- `\s+\d+` matched at the start of `cs`: at least one whitespace character
followed immediately by an ASCII digit (the rest is unconstrained, since
`re.match` only anchors the pattern at the start). -/
def wsThenDigit (cs : Str) : Bool :=
  (cs.takeWhile isPyWs ≠ ([] : Str) : Bool) &&
    (match cs.dropWhile isPyWs with
     | d :: _ => isAsciiDigit d
     | [] => false)

/-- `re.match(r'^(chapter|ch\.?)\s+\d+', text)`: the word `chapter`, or `ch`
optionally followed by a period, then one or more whitespace characters, then
a digit.  The three disjuncts reproduce the regex's backtracking cases. -/
def matchesChapter (cs : Str) : Bool :=
  ("chapter".data.isPrefixOf cs && wsThenDigit (cs.drop 7)) ||
  ("ch.".data.isPrefixOf cs && wsThenDigit (cs.drop 3)) ||
  ("ch".data.isPrefixOf cs && wsThenDigit (cs.drop 2))

/-- Python `str.lower()` restricted to ASCII (all tag names and the pattern
letters are ASCII). -/
def pyLower (cs : Str) : Str := cs.map Char.toLower

/-- The heading fallback chain of `extract_title_from_content`: for each tag
in order, take the document's first element with that tag; if it exists and
its text is non-blank after stripping, that stripped text is the answer,
otherwise move to the next tag. -/
def tryHeadings : List Str → List Node → Option Str
  | [], _ => none
  | t :: ts, soup =>
    match findTagL t soup with
    | some el =>
      let s := pyStrip (getTextN el)
      if s = [] then tryHeadings ts soup else some s
    | none => tryHeadings ts soup

/-- The fallback scan of `extract_title_from_content`: first `p`/`div`/`span`
element whose stripped text, lowercased, matches the chapter pattern; the
stripped (not lowercased) text is returned. -/
def tryChapterScan (soup : List Node) : Option Str :=
  (findAllL ["p".data, "div".data, "span".data] soup).findSome? fun el =>
    let s := pyStrip (getTextN el)
    if matchesChapter (pyLower s) then some s else none

/-- `EPUBProcessor.extract_title_from_content`. -/
def extract_title_from_content (soup : List Node) : Str :=
  match tryHeadings ["h1".data, "h2".data, "h3".data, "title".data] soup with
  | some s => s
  | none =>
    match tryChapterScan soup with
    | some s => s
    | none => "Untitled Chapter".data

/-- The external collaborators of the pipeline: `parse` stands for
`BeautifulSoup(html, 'html.parser')` and `render` for
`markdownify(str(soup), heading_style="ATX", bullets="-", strip=[...])`.
Either may fail (raise), which the pipeline must catch per fragment. -/
structure Env where
  parse : Str → Except Str (List Node)
  render : List Node → Except Str Str

/-- `EPUBProcessor.html_to_markdown`: parse, decompose every
`script`/`style`/`meta`/`link` element, render to markdown, collapse newline
runs of length ≥ 3 to two, and strip the result. -/
def html_to_markdown (env : Env) (html : Str) : Except Str Str :=
  match env.parse html with
  | .error e => .error e
  | .ok soup =>
    match env.render
        (removeKindsL ["script".data, "style".data, "meta".data, "link".data]
          soup) with
    | .error e => .error e
    | .ok m => .ok (normalizeNewlines m)

/-- Outcome of the per-fragment body of `process_chapters`: skipped because
the plain text is under 100 characters (with its length, which is printed),
skipped because conversion produced only whitespace, or accepted. -/
inductive FragResult where
  | shortSkip (len : Nat)
  | emptySkip
  | chapter (title content : Str)

/-- The body of the `for` loop of `process_chapters` for one spine item: the
item's content is an already-decoded string or a decode error; parse it,
extract the title, gate on stripped plain-text length < 100, convert to
markdown, gate on emptiness of the converted text.  Any error propagates to
the caller, which catches it. -/
def processFragment (env : Env) (content : Except Str Str) :
    Except Str FragResult :=
  match content with
  | .error e => .error e
  | .ok html =>
    match env.parse html with
    | .error e => .error e
    | .ok soup =>
      let title := extract_title_from_content soup
      let textContent := pyStrip (getTextF soup)
      if textContent.length < 100 then .ok (.shortSkip textContent.length)
      else
        match html_to_markdown env html with
        | .error e => .error e
        | .ok mdContent =>
          if pyStrip mdContent = [] then .ok .emptySkip
          else .ok (.chapter title mdContent)

/-- One console log line of `process_chapters`, with its 1-based item
position. -/
inductive LogEntry where
  | skipShort (pos : Nat) (len : Nat)
  | skipEmpty (pos : Nat)
  | errorCaught (pos : Nat) (msg : Str)

/-- The loop of `process_chapters`, carrying the 1-based position `i`
(`enumerate(spine_items, 1)`): accepted fragments are appended to the chapter
list; skips and caught errors only add a log entry and continue. -/
def processGo (env : Env) :
    Nat → List (Except Str Str) → List (Str × Str) × List LogEntry
  | _, [] => ([], [])
  | i, it :: rest =>
    let r := processGo env (i + 1) rest
    match processFragment env it with
    | .ok (.chapter t c) => ((t, c) :: r.1, r.2)
    | .ok (.shortSkip n) => (r.1, .skipShort i n :: r.2)
    | .ok .emptySkip => (r.1, .skipEmpty i :: r.2)
    | .error e => (r.1, .errorCaught i e :: r.2)

/-- `EPUBProcessor.process_chapters`: returns the accepted `(title, content)`
list together with the log of skips and caught errors. -/
def process_chapters (env : Env) (items : List (Except Str Str)) :
    List (Str × Str) × List LogEntry :=
  processGo env 1 items

/-- The container's metadata as `get_metadata('DC', key)` returns it: a list
of values per key (empty when the field is absent). -/
structure BookMeta where
  title : List Str
  creator : List Str
  language : List Str

/-- The dictionary built by `get_book_info`. -/
structure BookInfo where
  title : Str
  author : Str
  language : Str

/-- `EPUBProcessor.get_book_info`: `[0][0]` on an empty metadata list raises
`IndexError`, caught and replaced by `'Unknown'`; the author field joins all
creator values with `', '` (an empty join raises nothing). -/
def get_book_info (m : BookMeta) : BookInfo :=
  { title := match m.title with | t :: _ => t | [] => "Unknown".data
    author := List.intercalate ", ".data m.creator
    language := match m.language with | l :: _ => l | [] => "Unknown".data }

/-- Decimal digit to character. -/
def digitCh : Nat → Char
  | 0 => '0' | 1 => '1' | 2 => '2' | 3 => '3' | 4 => '4'
  | 5 => '5' | 6 => '6' | 7 => '7' | 8 => '8' | _ => '9'

/-- Character back to decimal digit value (proof-side inverse of
`digitCh`). -/
def chVal (c : Char) : Nat := c.toNat - 48

/-- Decode a most-significant-first decimal string back to the number it
denotes (proof-side inverse of `natDecimal`). -/
def decNat (cs : Str) : Nat := Nat.ofDigits 10 ((cs.map chVal).reverse)

/-- Fuel-driven digit extraction (most significant first); the fuel only
bounds the recursion depth and `decAux n n` is exact for every `n`. -/
def decAux : Nat → Nat → Str
  | 0, _ => []
  | fuel + 1, n =>
    if n = 0 then [] else decAux fuel (n / 10) ++ [digitCh (n % 10)]

/-- Decimal representation of a natural number (`str(i)` / `repr`). -/
def natDecimal (n : Nat) : Str :=
  if n = 0 then ['0'] else decAux n n

/-- `f"{i:02d}"`: the decimal representation left-padded with `'0'` to width
two. -/
def pad2 (i : Nat) : Str :=
  let d := natDecimal i
  if d.length < 2 then List.replicate (2 - d.length) '0' ++ d else d

/-- The chapter filename built in `save_chapters`:
`f"{i:02d}_{clean_title}.md"`. -/
def chapter_file_name (i : Nat) (title : Str) : Str :=
  pad2 i ++ ('_' :: clean_filename title) ++ ".md".data

/-- The chapter file body built in `save_chapters`:
`f"# {title}\n\n{content}"`. -/
def chapter_file_body (title content : Str) : Str :=
  "# ".data ++ title ++ "\n\n".data ++ content

/-- The `(filename, body)` pairs `save_chapters` attempts to write, in order
(`enumerate(chapters, 1)` embedded as indexing over `range`). -/
def save_chapters_files (chapters : List (Str × Str)) : List (Str × Str) :=
  (List.range chapters.length).map fun k =>
    (chapter_file_name (k + 1) (chapters.getD k ([], [])).1,
     chapter_file_body (chapters.getD k ([], [])).1
       (chapters.getD k ([], [])).2)

/-- The link target built in `create_index_file`:
`f"{i:02d}_{clean_title}.md"` recomputed there from the chapter title. -/
def index_link_name (i : Nat) (title : Str) : Str :=
  pad2 i ++ ('_' :: clean_filename title) ++ ".md".data

/-- One table-of-contents line of `create_index_file`:
`f"{i}. [{title}](./{filename})\n"`. -/
def toc_line (i : Nat) (title : Str) : Str :=
  natDecimal i ++ ". [".data ++ title ++ "](./".data ++
    index_link_name i title ++ ")\n".data

/-- The header of `README.md` built by `create_index_file`. -/
def index_header (info : BookInfo) (chapterCount : Nat) : Str :=
  "# ".data ++ info.title ++ "\n\n**Author:** ".data ++ info.author ++
    "  \n**Language:** ".data ++ info.language ++
    "  \n**Chapters:** ".data ++ natDecimal chapterCount ++
    "\n\n## Table of Contents\n\n".data

/-- The full content of `README.md`. -/
def index_content (m : BookMeta) (chapters : List (Str × Str)) : Str :=
  index_header (get_book_info m) chapters.length ++
    ((List.range chapters.length).map fun k =>
      toc_line (k + 1) (chapters.getD k ([], [])).1).flatten

/-- The filesystem collaborator: whether `write_text` at a given name
succeeds.  (`mkdir(exist_ok=True)` is modelled as always succeeding.) -/
structure FS where
  writeOk : Str → Bool

/-- One observable filesystem action of a run. -/
inductive Effect where
  | mkdir
  | write (name : Str) (content : Str)

/-- The name of the index file. -/
def readmeName : Str := "README.md".data

/-- `EPUBProcessor.save_chapters`: create the output directory, then attempt
each chapter file; a failed write is caught and logged, the other writes
still happen.  Returns the performed effects and the error log. -/
def save_chapters_run (fs : FS) (chapters : List (Str × Str)) :
    List Effect × List Str :=
  let files := save_chapters_files chapters
  (Effect.mkdir ::
     (files.filter fun f => fs.writeOk f.1).map fun f => Effect.write f.1 f.2,
   (files.filter fun f => !fs.writeOk f.1).map
     fun f => "Error saving ".data ++ f.1)

/-- `EPUBProcessor.create_index_file`: the `write_text` on `README.md` is not
wrapped in any `try`, so a failure propagates to the caller. -/
def create_index_file_run (fs : FS) (m : BookMeta)
    (chapters : List (Str × Str)) : Except Str (List Effect) :=
  if fs.writeOk readmeName then
    .ok [Effect.write readmeName (index_content m chapters)]
  else .error ("write failed: ".data ++ readmeName)

/-- `EPUBProcessor.process` after a successful load: run the chapter
pipeline; on an empty chapter list return with no filesystem action at all;
otherwise save the chapters and then write the index, propagating any
uncaught exception of the latter. -/
def process_run (env : Env) (fs : FS) (m : BookMeta)
    (items : List (Except Str Str)) : Except Str (List Effect) :=
  let chapters := (process_chapters env items).1
  if chapters.isEmpty then .ok []
  else
    match create_index_file_run fs m chapters with
    | .ok idx => .ok ((save_chapters_run fs chapters).1 ++ idx)
    | .error e => .error e

/-- Non-blankness of the first and last character of a string: used to state
that the sanitizer's pre-truncation value carries no leading or trailing
whitespace. -/
def leadTrailOk (l : Str) : Bool :=
  (match l.head? with | some c => !isPyWs c | none => true) &&
    (match l.reverse.head? with | some c => !isPyWs c | none => true)

/-- A simple concrete environment: the parser wraps the raw text into one
paragraph node and the renderer returns the plain text of the forest. -/
def envSimple : Env :=
  { parse := fun s => .ok [Node.elem "p".data [Node.text s]]
    render := fun ns => .ok (getTextF ns) }

/-- A concrete 150-character fragment payload. -/
def htmlA : Str := List.replicate 150 'a'

/-- A trivial environment whose parser and renderer always succeed. -/
def envW : Env := ⟨fun _ => .ok [], fun _ => .ok []⟩

/-- The filesystem in which every write succeeds except `README.md`. -/
def fsNoIndex : FS := ⟨fun n => !(n == readmeName)⟩

/-- The empty metadata record. -/
def metaEmpty : BookMeta := ⟨[], [], []⟩

/-- A single accepted 150-character fragment. -/
def itemsOne : List (Except Str Str) := [.ok htmlA]

/-! ### General helper lemmas about the character-level string operations -/

lemma replaceBad_no_bad {c : Char} {l : Str} (h : c ∈ replaceBad l) :
    badChar c = false := by
  rcases List.mem_map.mp h with ⟨a, -, rfl⟩
  by_cases hb : badChar a = true
  · simp only [hb, if_true]; decide
  · rw [if_neg hb]; simpa using hb

lemma collapseWsGo_mem {c : Char} :
    ∀ (l : Str) (b : Bool), c ∈ collapseWsGo b l → c = ' ' ∨ c ∈ l := by
  intro l
  induction l with
  | nil => intro b h; simp [collapseWsGo] at h
  | cons a rest ih =>
    intro b h
    by_cases hw : isPyWs a = true
    · cases b with
      | true =>
        simp only [collapseWsGo, hw, if_true] at h
        rcases ih true h with h' | h'
        · exact Or.inl h'
        · exact Or.inr (List.mem_cons_of_mem _ h')
      | false =>
        simp only [collapseWsGo, hw, if_true] at h
        rcases List.mem_cons.mp h with rfl | h'
        · exact Or.inl rfl
        · rcases ih true h' with h'' | h''
          · exact Or.inl h''
          · exact Or.inr (List.mem_cons_of_mem _ h'')
    · simp only [Bool.not_eq_true] at hw
      simp only [collapseWsGo, hw, Bool.false_eq_true, if_false] at h
      rcases List.mem_cons.mp h with rfl | h'
      · exact Or.inr (List.mem_cons_self _ _)
      · rcases ih false h' with h'' | h''
        · exact Or.inl h''
        · exact Or.inr (List.mem_cons_of_mem _ h'')

lemma collapseWs_mem {c : Char} {l : Str} (h : c ∈ collapseWs l) :
    c = ' ' ∨ c ∈ l :=
  collapseWsGo_mem l false h

lemma pyStrip_subset {l : Str} : pyStrip l ⊆ l := by
  intro c hc
  unfold pyStrip dropTrailWhile at hc
  rw [List.mem_reverse] at hc
  have h1 := List.dropWhile_subset (l := (l.dropWhile isPyWs).reverse) isPyWs hc
  rw [List.mem_reverse] at h1
  exact List.dropWhile_subset isPyWs h1

lemma clean_filename_mem {c : Char} {s : Str} (h : c ∈ clean_filename s) :
    badChar c = false := by
  unfold clean_filename at h
  have h1 : c ∈ pyStrip (collapseWs (replaceBad (removeTags s))) :=
    List.take_subset _ _ h
  have h2 : c ∈ collapseWs (replaceBad (removeTags s)) := pyStrip_subset h1
  rcases collapseWs_mem h2 with rfl | h3
  · decide
  · exact replaceBad_no_bad h3

lemma hasWsPair_tail {a : Char} {l : Str} (h : hasWsPair (a :: l) = false) :
    hasWsPair l = false := by
  cases l with
  | nil => rfl
  | cons b r =>
    simp only [hasWsPair, Bool.or_eq_false_iff] at h
    exact h.2

lemma hasWsPair_cons_of_not_ws {a : Char} {l : Str} (h : isPyWs a = false) :
    hasWsPair (a :: l) = hasWsPair l := by
  cases l with
  | nil => simp [hasWsPair]
  | cons b r => simp [hasWsPair, h]

lemma hasWsPair_cons_of_head_not_ws {a : Char} {l : Str}
    (h : ∀ c, l.head? = some c → isPyWs c = false) :
    hasWsPair (a :: l) = hasWsPair l := by
  cases l with
  | nil => simp [hasWsPair]
  | cons b r => simp [hasWsPair, h b rfl]

lemma collapseWsGo_head_not_ws :
    ∀ (l : Str) (c : Char), (collapseWsGo true l).head? = some c →
      isPyWs c = false := by
  intro l
  induction l with
  | nil => intro c h; simp [collapseWsGo] at h
  | cons a rest ih =>
    intro c h
    by_cases hw : isPyWs a = true
    · simp only [collapseWsGo, hw, if_true] at h
      exact ih c h
    · simp only [Bool.not_eq_true] at hw
      simp only [collapseWsGo, hw, Bool.false_eq_true, if_false,
        List.head?_cons, Option.some.injEq] at h
      exact h ▸ hw

lemma collapseWsGo_no_pair :
    ∀ (l : Str) (b : Bool), hasWsPair (collapseWsGo b l) = false := by
  intro l
  induction l with
  | nil => intro b; rfl
  | cons a rest ih =>
    intro b
    by_cases hw : isPyWs a = true
    · cases b with
      | true => simp only [collapseWsGo, hw, if_true]; exact ih true
      | false =>
        simp only [collapseWsGo, hw, if_true, Bool.false_eq_true, if_false]
        rw [hasWsPair_cons_of_head_not_ws (collapseWsGo_head_not_ws rest)]
        exact ih true
    · simp only [Bool.not_eq_true] at hw
      simp only [collapseWsGo, hw, Bool.false_eq_true, if_false]
      rw [hasWsPair_cons_of_not_ws hw]
      exact ih false

lemma collapseWs_no_pair (l : Str) : hasWsPair (collapseWs l) = false :=
  collapseWsGo_no_pair l false

lemma head_dropWhile_not {p : Char → Bool} :
    ∀ (l : Str) (c : Char), (l.dropWhile p).head? = some c → p c = false := by
  intro l
  induction l with
  | nil => intro c h; simp [List.dropWhile] at h
  | cons a rest ih =>
    intro c h
    by_cases hp : p a = true
    · rw [List.dropWhile_cons_of_pos hp] at h
      exact ih c h
    · simp only [Bool.not_eq_true] at hp
      rw [List.dropWhile_cons_of_neg (by simp [hp])] at h
      simp only [List.head?_cons, Option.some.injEq] at h
      exact h ▸ hp

lemma dropWhile_suffix_ex {p : Char → Bool} :
    ∀ l : Str, ∃ t, t ++ l.dropWhile p = l := by
  intro l
  induction l with
  | nil => exact ⟨[], rfl⟩
  | cons a rest ih =>
    by_cases hp : p a = true
    · rcases ih with ⟨t, ht⟩
      exact ⟨a :: t, by rw [List.dropWhile_cons_of_pos hp, List.cons_append, ht]⟩
    · simp only [Bool.not_eq_true] at hp
      exact ⟨[], by rw [List.dropWhile_cons_of_neg (by simp [hp]),
        List.nil_append]⟩

lemma hasWsPair_append_left {a b : Str} (h : hasWsPair (a ++ b) = false) :
    hasWsPair a = false := by
  induction a with
  | nil => rfl
  | cons x xs ih =>
    rw [List.cons_append] at h
    have hx := hasWsPair_tail h
    have hxs := ih hx
    cases xs with
    | nil => rfl
    | cons y r =>
      simp only [List.cons_append, hasWsPair, Bool.or_eq_false_iff] at h ⊢
      exact ⟨h.1, hxs⟩

lemma hasWsPair_append_right {a b : Str} (h : hasWsPair (a ++ b) = false) :
    hasWsPair b = false := by
  induction a with
  | nil => exact h
  | cons x xs ih =>
    rw [List.cons_append] at h
    exact ih (hasWsPair_tail h)

lemma head_append_of_head {a t : Str} {c : Char} (h : a.head? = some c) :
    (a ++ t).head? = some c := by
  cases a with
  | nil => simp at h
  | cons x r => simpa using h

lemma pyStrip_prefix_ex (l : Str) : ∃ t, pyStrip l ++ t = l.dropWhile isPyWs := by
  rcases dropWhile_suffix_ex (p := isPyWs) ((l.dropWhile isPyWs).reverse)
    with ⟨t, ht⟩
  refine ⟨t.reverse, ?_⟩
  have := congrArg List.reverse ht
  simpa [pyStrip, dropTrailWhile] using this

lemma pyStrip_head_not_ws {l : Str} {c : Char}
    (h : (pyStrip l).head? = some c) : isPyWs c = false := by
  rcases pyStrip_prefix_ex l with ⟨t, ht⟩
  exact head_dropWhile_not l c (ht ▸ head_append_of_head h)

lemma pyStrip_last_not_ws {l : Str} {c : Char}
    (h : (pyStrip l).reverse.head? = some c) : isPyWs c = false := by
  have hrev : (pyStrip l).reverse = (l.dropWhile isPyWs).reverse.dropWhile
      isPyWs := by
    simp [pyStrip, dropTrailWhile]
  exact head_dropWhile_not _ c (hrev ▸ h)

lemma pyStrip_no_pair {l : Str} (h : hasWsPair l = false) :
    hasWsPair (pyStrip l) = false := by
  rcases dropWhile_suffix_ex (p := isPyWs) l with ⟨t, ht⟩
  have h1 : hasWsPair (l.dropWhile isPyWs) = false :=
    hasWsPair_append_right (ht.symm ▸ h)
  rcases pyStrip_prefix_ex l with ⟨t2, ht2⟩
  exact hasWsPair_append_left (ht2.symm ▸ h1)

lemma leadTrailOk_of {t : Str}
    (h1 : ∀ c, t.head? = some c → isPyWs c = false)
    (h2 : ∀ c, t.reverse.head? = some c → isPyWs c = false) :
    leadTrailOk t = true := by
  unfold leadTrailOk
  cases ha : t.head? with
  | none => cases hb : t.reverse.head? with
    | none => simp
    | some c => simp [h2 c hb]
  | some c => cases hb : t.reverse.head? with
    | none => simp [h1 c ha]
    | some d => simp [h1 c ha, h2 d hb]

/-- C3: for every input string, `clean_filename` returns a string with none
of the characters `< > : " / \ | ? *`; the value before truncation has no
run of two or more whitespace characters and no leading or trailing
whitespace; the final result is exactly that value truncated to 100
characters (no ellipsis or marker appended) and hence at most 100 characters
long; the function is total and may return the empty string (it does on
empty input). -/
theorem clean_filename_spec (s : Str) :
    (∀ c ∈ clean_filename s, badChar c = false) ∧
    hasWsPair (clean_filename_pre s) = false ∧
    leadTrailOk (clean_filename_pre s) = true ∧
    clean_filename s = (clean_filename_pre s).take 100 ∧
    (clean_filename s).length ≤ 100 ∧
    clean_filename [] = [] := by
  refine ⟨fun c hc => clean_filename_mem hc, ?_, ?_, rfl, ?_, by decide⟩
  · exact pyStrip_no_pair (collapseWs_no_pair _)
  · exact leadTrailOk_of (fun c h => pyStrip_head_not_ws h)
      (fun c h => pyStrip_last_not_ws h)
  · exact List.length_take_le _ _

/-! ### Newline-run lemmas for the markdown normalization -/

lemma hasNNN_tail {a : Char} {l : Str} (h : hasNNN (a :: l) = false) :
    hasNNN l = false := by
  cases l with
  | nil => rfl
  | cons b r =>
    cases r with
    | nil => rfl
    | cons c s =>
      simp only [hasNNN, Bool.or_eq_false_iff] at h
      exact h.2

lemma hasNNN_cons_of_ne {a : Char} {l : Str} (h : ¬a = '\n') :
    hasNNN (a :: l) = hasNNN l := by
  cases l with
  | nil => rfl
  | cons b r =>
    cases r with
    | nil => rfl
    | cons c s => simp [hasNNN, h]

lemma hasNNN_nl_cons_of_ne {a : Char} {l : Str} (h : ¬a = '\n') :
    hasNNN ('\n' :: a :: l) = hasNNN (a :: l) := by
  cases l with
  | nil => rfl
  | cons c s => simp [hasNNN, h]

lemma hasNNN_nl2_cons_of_ne {a : Char} {l : Str} (h : ¬a = '\n') :
    hasNNN ('\n' :: '\n' :: a :: l) = hasNNN ('\n' :: a :: l) := by
  simp [hasNNN, h]

lemma emitNl_cases (n : Nat) :
    emitNl n = [] ∨ emitNl n = ['\n'] ∨ emitNl n = ['\n', '\n'] := by
  rcases n with _ | _ | _ | m
  · left; decide
  · right; left; decide
  · right; right; decide
  · right; right
    simp [emitNl, Nat.le_add_left]

lemma hasNNN_emit_cons {a : Char} {X : Str} (n : Nat) (h : ¬a = '\n')
    (hX : hasNNN (a :: X) = false) :
    hasNNN (emitNl n ++ a :: X) = false := by
  rcases emitNl_cases n with h0 | h1 | h2
  · rw [h0, List.nil_append]; exact hX
  · rw [h1, List.cons_append, List.nil_append, hasNNN_nl_cons_of_ne h]
    exact hX
  · rw [h2, List.cons_append, List.cons_append, List.nil_append,
      hasNNN_nl2_cons_of_ne h, hasNNN_nl_cons_of_ne h]
    exact hX

lemma collapseNlGo_no3 : ∀ (l : Str) (n : Nat),
    hasNNN (collapseNlGo n l) = false := by
  intro l
  induction l with
  | nil =>
    intro n
    show hasNNN (emitNl n) = false
    rcases emitNl_cases n with h | h | h <;> rw [h] <;> rfl
  | cons c rest ih =>
    intro n
    by_cases hc : c = '\n'
    · subst hc
      simp only [collapseNlGo, if_pos rfl]
      exact ih (n + 1)
    · simp only [collapseNlGo, if_neg hc]
      exact hasNNN_emit_cons n hc (by rw [hasNNN_cons_of_ne hc]; exact ih 0)

lemma hasNNN_append_right : ∀ {a b : Str}, hasNNN (a ++ b) = false →
    hasNNN b = false := by
  intro a
  induction a with
  | nil => intro b h; exact h
  | cons x xs ih =>
    intro b h
    rw [List.cons_append] at h
    exact ih (hasNNN_tail h)

lemma hasNNN_append_left : ∀ {a b : Str}, hasNNN (a ++ b) = false →
    hasNNN a = false := by
  intro a
  induction a with
  | nil => intro b h; rfl
  | cons x xs ih =>
    intro b h
    have hx2 : hasNNN (xs ++ b) = false := hasNNN_tail (by simpa using h)
    have hxs := ih hx2
    cases xs with
    | nil => rfl
    | cons y ys =>
      cases ys with
      | nil => rfl
      | cons z r =>
        simp only [List.cons_append, hasNNN, Bool.or_eq_false_iff] at h ⊢
        exact ⟨h.1, hxs⟩

lemma repl_shift (n : Nat) (rest : Str) :
    List.replicate n '\n' ++ '\n' :: rest =
      List.replicate (n + 1) '\n' ++ rest := by
  rw [List.replicate_succ' (n := n), List.append_assoc, List.singleton_append]

lemma collapseNlGo_id : ∀ (l : Str) (n : Nat), n ≤ 2 →
    hasNNN (List.replicate n '\n' ++ l) = false →
    collapseNlGo n l = List.replicate n '\n' ++ l := by
  intro l
  induction l with
  | nil =>
    intro n hn _
    show emitNl n = _
    rw [List.append_nil]
    unfold emitNl
    rw [if_neg (by omega)]
  | cons c rest ih =>
    intro n hn h
    by_cases hc : c = '\n'
    · subst hc
      have hn1 : n ≤ 1 := by
        rcases Nat.lt_or_ge n 2 with h' | h'
        · omega
        · exfalso
          have hn2 : n = 2 := by omega
          subst hn2
          simp [hasNNN] at h
      simp only [collapseNlGo, if_pos rfl]
      rw [repl_shift] at h ⊢
      exact ih (n + 1) (by omega) h
    · simp only [collapseNlGo, if_neg hc]
      have hrest : hasNNN rest = false :=
        hasNNN_tail (hasNNN_append_right (a := List.replicate n '\n') h)
      rw [ih 0 (by omega) (by simpa using hrest)]
      unfold emitNl
      rw [if_neg (by omega)]
      simp

lemma dropWhile_eq_self_of_head {p : Char → Bool} {l : Str}
    (h : ∀ c, l.head? = some c → p c = false) : l.dropWhile p = l := by
  cases l with
  | nil => rfl
  | cons a r =>
    rw [List.dropWhile_cons_of_neg (by simp [h a rfl])]

lemma pyStrip_idem (l : Str) : pyStrip (pyStrip l) = pyStrip l := by
  show dropTrailWhile isPyWs ((pyStrip l).dropWhile isPyWs) = pyStrip l
  rw [dropWhile_eq_self_of_head (fun c h => pyStrip_head_not_ws h)]
  show ((pyStrip l).reverse.dropWhile isPyWs).reverse = pyStrip l
  rw [dropWhile_eq_self_of_head (fun c h => pyStrip_last_not_ws h),
    List.reverse_reverse]

lemma hasNNN_pyStrip {l : Str} (h : hasNNN l = false) :
    hasNNN (pyStrip l) = false := by
  rcases dropWhile_suffix_ex (p := isPyWs) l with ⟨t, ht⟩
  have hd : hasNNN (l.dropWhile isPyWs) = false :=
    hasNNN_append_right (ht.symm ▸ h)
  rcases pyStrip_prefix_ex l with ⟨t2, ht2⟩
  exact hasNNN_append_left (ht2.symm ▸ hd)

/-- C7: the blank-line normalization of the markdown converter (collapse of
every run of three or more newlines to exactly two, followed by trimming) is
idempotent: its output never contains three consecutive newline characters,
and re-applying the normalization to its own output returns it unchanged. -/
theorem normalizeNewlines_idem (m : Str) :
    hasNNN (normalizeNewlines m) = false ∧
    normalizeNewlines (normalizeNewlines m) = normalizeNewlines m := by
  have h1 : hasNNN (collapseNl m) = false := collapseNlGo_no3 m 0
  have h2 : hasNNN (normalizeNewlines m) = false := hasNNN_pyStrip h1
  refine ⟨h2, ?_⟩
  show pyStrip (collapseNl (normalizeNewlines m)) = normalizeNewlines m
  have h3 : collapseNl (normalizeNewlines m) = normalizeNewlines m := by
    have := collapseNlGo_id (normalizeNewlines m) 0 (by omega)
      (by simpa using h2)
    simpa [collapseNl] using this
  rw [h3]
  exact pyStrip_idem _

/-! ### Title resolver lemmas -/

lemma findSome?_mem {α β : Type} {f : α → Option β} :
    ∀ {l : List α} {b : β}, l.findSome? f = some b → ∃ a ∈ l, f a = some b := by
  intro l
  induction l with
  | nil => intro b h; simp [List.findSome?] at h
  | cons x xs ih =>
    intro b h
    rw [List.findSome?_cons] at h
    cases hx : f x with
    | some y =>
      rw [hx] at h
      exact ⟨x, List.mem_cons_self _ _, hx.trans h⟩
    | none =>
      rw [hx] at h
      rcases ih h with ⟨a, ha, hfa⟩
      exact ⟨a, List.mem_cons_of_mem _ ha, hfa⟩

lemma tryHeadings_some_ne_nil :
    ∀ {ts : List Str} {soup : List Node} {s : Str},
      tryHeadings ts soup = some s → s ≠ [] := by
  intro ts
  induction ts with
  | nil => intro soup s h; simp [tryHeadings] at h
  | cons t ts ih =>
    intro soup s h
    cases hf : findTagL t soup with
    | some el =>
      simp only [tryHeadings, hf] at h
      by_cases hs : pyStrip (getTextN el) = []
      · rw [if_pos hs] at h
        exact ih h
      · rw [if_neg hs] at h
        cases h
        exact hs
    | none =>
      simp only [tryHeadings, hf] at h
      exact ih h

lemma tryChapterScan_some {soup : List Node} {s : Str}
    (h : tryChapterScan soup = some s) :
    s ≠ [] ∧ matchesChapter (pyLower s) = true := by
  rcases findSome?_mem h with ⟨el, -, hel⟩
  by_cases hm : matchesChapter (pyLower (pyStrip (getTextN el))) = true
  · rw [if_pos hm] at hel
    cases hel
    refine ⟨?_, hm⟩
    intro hnil
    rw [hnil] at hm
    exact absurd hm (by decide)
  · rw [if_neg hm] at hel
    cases hel

/-- C4: for every node tree (including empty or heading-free ones) the title
resolver returns a non-empty string; the first `h1` with non-blank text wins
immediately; and when the whole heading chain and the chapter-pattern scan
both fail, the literal `"Untitled Chapter"` is returned. -/
theorem extract_title_total (soup : List Node) :
    extract_title_from_content soup ≠ [] ∧
    (∀ el, findTagL "h1".data soup = some el →
      pyStrip (getTextN el) ≠ [] →
      extract_title_from_content soup = pyStrip (getTextN el)) ∧
    (tryHeadings ["h1".data, "h2".data, "h3".data, "title".data] soup = none →
      tryChapterScan soup = none →
      extract_title_from_content soup = "Untitled Chapter".data) := by
  refine ⟨?_, ?_, ?_⟩
  · unfold extract_title_from_content
    cases h1 : tryHeadings ["h1".data, "h2".data, "h3".data, "title".data]
        soup with
    | some s => exact tryHeadings_some_ne_nil h1
    | none =>
      cases h2 : tryChapterScan soup with
      | some s => exact (tryChapterScan_some h2).1
      | none => decide
  · intro el hel hs
    unfold extract_title_from_content
    simp only [tryHeadings, hel, if_neg hs]
  · intro h1 h2
    unfold extract_title_from_content
    rw [h1, h2]

/-- C4 witness: on the empty tree, the resolver terminates at the final
fallback and returns the non-empty literal `"Untitled Chapter"`. -/
theorem extract_title_total_w :
    extract_title_from_content [] = "Untitled Chapter".data ∧
    extract_title_from_content [] ≠ [] :=
  ⟨(extract_title_total []).2.2 rfl rfl, (extract_title_total []).1⟩

lemma wsThenDigit_has_ws {cs : Str} (h : wsThenDigit cs = true) :
    ∃ c ∈ cs, isPyWs c = true := by
  unfold wsThenDigit at h
  rw [Bool.and_eq_true] at h
  have h1 := h.1
  cases ht : cs.takeWhile isPyWs with
  | nil => rw [ht] at h1; simp at h1
  | cons c r =>
    refine ⟨c, ?_, ?_⟩
    · exact List.takeWhile_subset isPyWs (ht ▸ List.mem_cons_self _ _)
    · exact List.mem_takeWhile_imp (ht ▸ List.mem_cons_self _ _)

lemma matchesChapter_has_ws {s : Str} (h : matchesChapter s = true) :
    ∃ c ∈ s, isPyWs c = true := by
  unfold matchesChapter at h
  simp only [Bool.or_eq_true, Bool.and_eq_true] at h
  have key : ∃ k, wsThenDigit (s.drop k) = true := by
    rcases h with (⟨-, h⟩ | ⟨-, h⟩) | ⟨-, h⟩
    · exact ⟨7, h⟩
    · exact ⟨3, h⟩
    · exact ⟨2, h⟩
  rcases key with ⟨k, hk⟩
  rcases wsThenDigit_has_ws hk with ⟨c, hc, hw⟩
  exact ⟨c, List.drop_subset k s hc, hw⟩

/-- C5 counterexample: a tree whose only candidate node has trimmed text
`"ch.3"` — the word `ch`, a period, then digits with no whitespace.  The
claim says the scan step matches it and returns `"ch.3"`; the code's pattern
`^(chapter|ch\.?)\s+\d+` demands at least one whitespace character before
the digits, so the scan fails and the resolver answers `"Untitled
Chapter"`. -/
theorem chapter_scan_cex :
    extract_title_from_content
        [Node.elem "p".data [Node.text "ch.3".data]] =
      "Untitled Chapter".data ∧
    "Untitled Chapter".data ≠ "ch.3".data ∧
    matchesChapter (pyLower (pyStrip "ch.3".data)) = false := by decide

/-- C5 amended: when no heading matches, the resolver returns the text of
the first `p`/`div`/`span` node whose trimmed lowercased text matches the
pattern — but the pattern requires at least one whitespace character between
the word (`chapter`, or `ch` with an optional period) and the digits: every
matched text contains a whitespace character, `"ch. 3"` matches, and
`"ch.3"` (period but no whitespace) does not. -/
theorem chapter_scan_amended (soup : List Node)
    (h : tryHeadings ["h1".data, "h2".data, "h3".data, "title".data] soup =
      none) :
    extract_title_from_content soup =
      (tryChapterScan soup).getD "Untitled Chapter".data ∧
    (∀ s : Str, matchesChapter s = true → ∃ c ∈ s, isPyWs c = true) ∧
    matchesChapter (pyLower (pyStrip "ch. 3".data)) = true ∧
    matchesChapter (pyLower (pyStrip "ch.3".data)) = false := by
  refine ⟨?_, fun s hs => matchesChapter_has_ws hs, by decide, by decide⟩
  unfold extract_title_from_content
  rw [h]
  cases h2 : tryChapterScan soup <;> simp

/-- C5 amended, witness: on a tree whose only node reads `"ch. 3"` (with the
whitespace the pattern requires), the scan fires and returns that text. -/
theorem chapter_scan_amended_w :
    extract_title_from_content
        [Node.elem "p".data [Node.text "ch. 3".data]] = "ch. 3".data := by
  have h := chapter_scan_amended
    [Node.elem "p".data [Node.text "ch. 3".data]] rfl
  rw [h.1]
  decide

/-! ### Fragment classifier -/

/-- C6: with a successful parse, the classifier skips every fragment whose
stripped plain text is under 100 characters regardless of its markup (the
conversion step is not even reached), skips every fragment whose converted
markup is blank after trimming, and accepts everything else, emitting the
resolved title and the converted content. -/
theorem classifier_spec (env : Env) (html : Str) (soup : List Node)
    (mdc : Str) (hp : env.parse html = .ok soup) :
    ((pyStrip (getTextF soup)).length < 100 →
      processFragment env (.ok html) =
        .ok (.shortSkip (pyStrip (getTextF soup)).length)) ∧
    (100 ≤ (pyStrip (getTextF soup)).length →
      html_to_markdown env html = .ok mdc →
      (pyStrip mdc = [] → processFragment env (.ok html) = .ok .emptySkip) ∧
      (pyStrip mdc ≠ [] → processFragment env (.ok html) =
        .ok (.chapter (extract_title_from_content soup) mdc))) := by
  constructor
  · intro hlen
    simp only [processFragment, hp]
    rw [if_pos hlen]
  · intro hlen hmd
    constructor
    · intro hempty
      simp only [processFragment, hp, hmd]
      rw [if_neg (by omega), if_pos hempty]
    · intro hne
      simp only [processFragment, hp, hmd]
      rw [if_neg (by omega), if_neg hne]

set_option maxRecDepth 100000 in
/-- C6 witness: a fragment with exactly 150 plain characters and non-empty
converted content is accepted. -/
theorem classifier_spec_w :
    (pyStrip (getTextF [Node.elem "p".data [Node.text htmlA]])).length =
      150 ∧
    processFragment envSimple (.ok htmlA) =
      .ok (.chapter (extract_title_from_content
        [Node.elem "p".data [Node.text htmlA]]) htmlA) := by
  refine ⟨by decide, ?_⟩
  exact ((classifier_spec envSimple htmlA
      [Node.elem "p".data [Node.text htmlA]] htmlA rfl).2
    (by decide) rfl).2 (by decide)

/-! ### Chapter pipeline error isolation -/

lemma processGo_spec (env : Env) :
    ∀ (items : List (Except Str Str)) (k : Nat),
      (processGo env k items).1 = items.filterMap (fun it =>
        match processFragment env it with
        | .ok (.chapter t c) => some (t, c)
        | _ => none) ∧
      (∀ i e, (h : i < items.length) →
        processFragment env (items.get ⟨i, h⟩) = .error e →
        LogEntry.errorCaught (k + i) e ∈ (processGo env k items).2) := by
  intro items
  induction items with
  | nil =>
    intro k
    exact ⟨rfl, fun i e h => absurd h (Nat.not_lt_zero i)⟩
  | cons it rest ih =>
    intro k
    constructor
    · cases hf : processFragment env it with
      | ok r =>
        cases r with
        | chapter t c =>
          simp only [processGo, hf, List.filterMap_cons]
          exact congrArg _ (ih (k + 1)).1
        | shortSkip n =>
          simp only [processGo, hf, List.filterMap_cons]
          exact (ih (k + 1)).1
        | emptySkip =>
          simp only [processGo, hf, List.filterMap_cons]
          exact (ih (k + 1)).1
      | error e =>
        simp only [processGo, hf, List.filterMap_cons]
        exact (ih (k + 1)).1
    · intro i e h hf2
      cases i with
      | zero =>
        have hit : (it :: rest).get ⟨0, h⟩ = it := rfl
        rw [hit] at hf2
        simp only [processGo, hf2, Nat.add_zero]
        exact List.mem_cons_self _ _
      | succ i =>
        have hrest : (it :: rest).get ⟨i + 1, h⟩ =
            rest.get ⟨i, Nat.lt_of_succ_lt_succ h⟩ := rfl
        rw [hrest] at hf2
        have hmem := (ih (k + 1)).2 i e (Nat.lt_of_succ_lt_succ h) hf2
        have harith : k + 1 + i = k + (i + 1) := by omega
        rw [harith] at hmem
        cases hf : processFragment env it with
        | ok r =>
          cases r with
          | chapter t c => simpa [processGo, hf] using hmem
          | shortSkip n =>
            simp only [processGo, hf]
            exact List.mem_cons_of_mem _ hmem
          | emptySkip =>
            simp only [processGo, hf]
            exact List.mem_cons_of_mem _ hmem
        | error e2 =>
          simp only [processGo, hf]
          exact List.mem_cons_of_mem _ hmem

/-- C1 amended, part 1: the pipeline never aborts on a bad fragment — the
chapter list is exactly the accepted fragments in order (a failing fragment
contributes nothing), and every fragment whose processing raises is logged
with its 1-based source position. -/
theorem process_chapters_isolates (env : Env)
    (items : List (Except Str Str)) :
    (process_chapters env items).1 = items.filterMap (fun it =>
      match processFragment env it with
      | .ok (.chapter t c) => some (t, c)
      | _ => none) ∧
    (∀ i e, (h : i < items.length) →
      processFragment env (items.get ⟨i, h⟩) = .error e →
      LogEntry.errorCaught (i + 1) e ∈ (process_chapters env items).2) := by
  refine ⟨(processGo_spec env items 1).1, ?_⟩
  intro i e h hf
  have := (processGo_spec env items 1).2 i e h hf
  rwa [Nat.add_comm 1 i] at this

/-- C1 amended, witness: a decode error on the only fragment is caught and
logged at position 1. -/
theorem process_chapters_isolates_w :
    LogEntry.errorCaught 1 "boom".data ∈
      (process_chapters envW [.error "boom".data]).2 :=
  (process_chapters_isolates envW [.error "boom".data]).2 0 "boom".data
    (by decide) rfl

set_option maxRecDepth 100000 in
/-- C1 counterexample: a file-level error does escalate to a process-level
failure.  With one accepted chapter and a filesystem on which only the
`README.md` write fails, the run raises: `create_index_file` performs its
`write_text` outside any `try`, so the failure propagates out of `process`
(where `main` turns it into exit code 1). -/
theorem index_write_escalates_cex :
    process_run envSimple fsNoIndex metaEmpty itemsOne =
      .error ("write failed: README.md".data) := by rfl

/-! ### Book metadata defaults -/

/-- C2 counterexample: with title and language present but no creator entry,
the author field becomes the empty string (the join of zero creators), not
the placeholder `"Unknown"` — the `except IndexError` branch never fires
because `', '.join([])` raises nothing. -/
theorem metadata_unknown_cex :
    (get_book_info ⟨["Test Book".data], [], ["en".data]⟩).author = [] ∧
    ([] : Str) ≠ "Unknown".data :=
  ⟨rfl, by decide⟩

/-- C2 amended: a missing title or language resolves to `"Unknown"`; a
missing creator list resolves to the empty string; in general the author is
the comma-join of all creator values. -/
theorem metadata_defaults (m : BookMeta) :
    (m.title = [] → (get_book_info m).title = "Unknown".data) ∧
    (m.language = [] → (get_book_info m).language = "Unknown".data) ∧
    (∀ t ts, m.title = t :: ts → (get_book_info m).title = t) ∧
    (m.creator = [] → (get_book_info m).author = []) ∧
    (get_book_info m).author = List.intercalate ", ".data m.creator := by
  refine ⟨?_, ?_, ?_, ?_, rfl⟩
  · intro h; simp [get_book_info, h]
  · intro h; simp [get_book_info, h]
  · intro t ts h; simp [get_book_info, h]
  · intro h; simp [get_book_info, h, List.intercalate]

/-- C2 amended, witness: on fully empty metadata, title and language read
`"Unknown"` and the author is empty. -/
theorem metadata_defaults_w :
    (get_book_info ⟨[], [], []⟩).title = "Unknown".data ∧
    (get_book_info ⟨[], [], []⟩).language = "Unknown".data ∧
    (get_book_info ⟨[], [], []⟩).author = [] :=
  ⟨(metadata_defaults ⟨[], [], []⟩).1 rfl,
   (metadata_defaults ⟨[], [], []⟩).2.1 rfl,
   (metadata_defaults ⟨[], [], []⟩).2.2.2.1 rfl⟩

/-! ### Empty pipeline performs no writes -/

/-- C10: when the pipeline accepts zero chapters, `process` returns before
`save_chapters` is ever called: no directory creation, no chapter write, no
index write — the run completes successfully with an empty effect list. -/
theorem empty_run_no_effects (env : Env) (fs : FS) (m : BookMeta)
    (items : List (Except Str Str))
    (h : (process_chapters env items).1 = []) :
    process_run env fs m items = .ok [] := by
  simp [process_run, h]

/-- C10 witness: a run whose only fragment fails to decode accepts nothing
and touches the filesystem not at all. -/
theorem empty_run_no_effects_w :
    process_run envW ⟨fun _ => true⟩ ⟨[], [], []⟩ [.error "x".data] =
      .ok [] :=
  empty_run_no_effects envW ⟨fun _ => true⟩ ⟨[], [], []⟩ [.error "x".data]
    rfl

/-! ### Decimal naming: numbering and index-link agreement -/

lemma digitCh_digit (d : Nat) : isAsciiDigit (digitCh d) = true := by
  unfold digitCh
  split <;> decide

lemma chVal_digitCh {d : Nat} (hd : d < 10) : chVal (digitCh d) = d := by
  interval_cases d <;> decide

lemma map_chVal_digitCh {l : List Nat} (h : ∀ d ∈ l, d < 10) :
    (l.map digitCh).map chVal = l := by
  induction l with
  | nil => rfl
  | cons d ds ih =>
    simp only [List.map_cons]
    rw [chVal_digitCh (h d (List.mem_cons_self _ _)),
      ih fun x hx => h x (List.mem_cons_of_mem _ hx)]

lemma decAux_eq : ∀ (fuel n : Nat), n ≤ fuel →
    decAux fuel n = ((Nat.digits 10 n).map digitCh).reverse := by
  intro fuel
  induction fuel with
  | zero =>
    intro n hn
    interval_cases n
    simp [decAux]
  | succ fuel ih =>
    intro n hn
    by_cases h0 : n = 0
    · subst h0; simp [decAux]
    · show (if n = 0 then [] else decAux fuel (n / 10) ++ [digitCh (n % 10)])
        = _
      rw [if_neg h0]
      have hdiv : n / 10 ≤ fuel := by
        have := Nat.div_lt_self (Nat.pos_of_ne_zero h0)
          (by norm_num : 1 < 10)
        omega
      rw [ih _ hdiv,
        Nat.digits_def' (by norm_num : 1 < 10) (Nat.pos_of_ne_zero h0),
        List.map_cons, List.reverse_cons]

lemma natDecimal_eq (n : Nat) :
    natDecimal n =
      if n = 0 then ['0'] else ((Nat.digits 10 n).map digitCh).reverse := by
  unfold natDecimal
  by_cases h : n = 0
  · rw [if_pos h, if_pos h]
  · rw [if_neg h, if_neg h]
    exact decAux_eq n n (Nat.le_refl n)

lemma natDecimal_ne_nil (n : Nat) : natDecimal n ≠ [] := by
  rw [natDecimal_eq]
  by_cases h : n = 0
  · rw [if_pos h]; simp
  · rw [if_neg h]
    simp [Nat.digits_ne_nil_iff_ne_zero.mpr h]

lemma decNat_natDecimal (n : Nat) : decNat (natDecimal n) = n := by
  rw [natDecimal_eq]
  by_cases h : n = 0
  · rw [if_pos h, h]; decide
  · rw [if_neg h]
    unfold decNat
    rw [List.map_reverse, List.reverse_reverse,
      map_chVal_digitCh fun d hd => Nat.digits_lt_base (by norm_num) hd,
      Nat.ofDigits_digits]

lemma natDecimal_inj {m n : Nat} (h : natDecimal m = natDecimal n) :
    m = n := by
  rw [← decNat_natDecimal m, h, decNat_natDecimal]

lemma natDecimal_mem_digit {c : Char} {n : Nat} (h : c ∈ natDecimal n) :
    isAsciiDigit c = true := by
  rw [natDecimal_eq] at h
  by_cases h0 : n = 0
  · rw [if_pos h0] at h
    simp only [List.mem_singleton] at h
    subst h; decide
  · rw [if_neg h0, List.mem_reverse] at h
    rcases List.mem_map.mp h with ⟨d, -, rfl⟩
    exact digitCh_digit d

lemma natDecimal_len_one {n : Nat} (h : n < 10) :
    (natDecimal n).length = 1 := by
  rw [natDecimal_eq]
  by_cases h0 : n = 0
  · rw [if_pos h0]; rfl
  · rw [if_neg h0,
      Nat.digits_def' (by norm_num : 1 < 10) (Nat.pos_of_ne_zero h0),
      Nat.mod_eq_of_lt h, Nat.div_eq_of_lt h]
    simp

lemma natDecimal_len_ge_two {n : Nat} (h : 10 ≤ n) :
    2 ≤ (natDecimal n).length := by
  have h0 : n ≠ 0 := by omega
  rw [natDecimal_eq, if_neg h0, List.length_reverse, List.length_map,
    Nat.digits_def' (by norm_num : 1 < 10) (Nat.pos_of_ne_zero h0)]
  have hq : n / 10 ≠ 0 := by
    intro hc
    have := Nat.div_add_mod n 10
    have hlt := Nat.mod_lt n (show 0 < 10 by norm_num)
    omega
  have hne : Nat.digits 10 (n / 10) ≠ [] :=
    Nat.digits_ne_nil_iff_ne_zero.mpr hq
  have := List.length_pos.mpr hne
  simp only [List.length_cons]
  omega

lemma natDecimal_head_ne_zero {n : Nat} (h10 : 10 ≤ n) {c : Char}
    (hc : (natDecimal n).head? = some c) : c ≠ '0' := by
  have h0 : n ≠ 0 := by omega
  rw [natDecimal_eq, if_neg h0, List.head?_reverse, List.getLast?_map] at hc
  have hne : Nat.digits 10 n ≠ [] := Nat.digits_ne_nil_iff_ne_zero.mpr h0
  rcases Option.map_eq_some'.mp hc with ⟨d, hd, rfl⟩
  have hdg : d = (Nat.digits 10 n).getLast hne := by
    rw [List.getLast?_eq_getLast _ hne, Option.some.injEq] at hd
    exact hd.symm
  have hdm : d ∈ Nat.digits 10 n := hdg ▸ List.getLast_mem hne
  have hlt : d < 10 := Nat.digits_lt_base (by norm_num) hdm
  have hdnz : d ≠ 0 := by
    rw [hdg]
    have := Nat.getLast_digit_ne_zero 10 h0
    simpa using this
  intro hzero
  apply hdnz
  have h2 := congrArg chVal hzero
  rw [chVal_digitCh hlt] at h2
  rw [h2]
  decide

lemma pad2_eq_cases (i : Nat) :
    (i < 10 ∧ pad2 i = '0' :: natDecimal i) ∨
    (10 ≤ i ∧ pad2 i = natDecimal i) := by
  by_cases h : i < 10
  · left
    refine ⟨h, ?_⟩
    simp only [pad2]
    rw [natDecimal_len_one h]
    rfl
  · right
    refine ⟨by omega, ?_⟩
    simp only [pad2]
    rw [if_neg (by have := natDecimal_len_ge_two (n := i) (by omega); omega)]

lemma pad2_inj {i j : Nat} (h : pad2 i = pad2 j) : i = j := by
  rcases pad2_eq_cases i with ⟨hi, hpi⟩ | ⟨hi, hpi⟩ <;>
    rcases pad2_eq_cases j with ⟨hj, hpj⟩ | ⟨hj, hpj⟩
  · rw [hpi, hpj] at h
    injection h with h1 h2
    exact natDecimal_inj h2
  · exfalso
    rw [hpi, hpj] at h
    exact natDecimal_head_ne_zero hj (by rw [← h]; rfl) rfl
  · exfalso
    rw [hpi, hpj] at h
    exact natDecimal_head_ne_zero hi (by rw [h]; rfl) rfl
  · rw [hpi, hpj] at h
    exact natDecimal_inj h

lemma pad2_digits {c : Char} {i : Nat} (h : c ∈ pad2 i) :
    isAsciiDigit c = true := by
  simp only [pad2] at h
  by_cases hl : (natDecimal i).length < 2
  · rw [if_pos hl] at h
    rcases List.mem_append.mp h with h2 | h2
    · rw [List.eq_of_mem_replicate h2]; decide
    · exact natDecimal_mem_digit h2
  · rw [if_neg hl] at h
    exact natDecimal_mem_digit h

lemma takeWhile_append_all {p : Char → Bool} :
    ∀ (a : Str) (x : Char) (r : Str), (∀ c ∈ a, p c = true) → p x = false →
      (a ++ x :: r).takeWhile p = a := by
  intro a
  induction a with
  | nil =>
    intro x r _ hx
    rw [List.nil_append, List.takeWhile_cons_of_neg (by simp [hx])]
  | cons c a' ih =>
    intro x r h hx
    rw [List.cons_append,
      List.takeWhile_cons_of_pos (h c (List.mem_cons_self _ _)),
      ih x r (fun d hd => h d (List.mem_cons_of_mem _ hd)) hx]

lemma chapter_file_name_takeWhile (i : Nat) (s : Str) :
    (chapter_file_name i s).takeWhile isAsciiDigit = pad2 i := by
  unfold chapter_file_name
  rw [List.append_assoc, List.cons_append]
  exact takeWhile_append_all (pad2 i) '_' _ (fun c hc => pad2_digits hc)
    (by decide)

lemma chapter_file_name_inj {i j : Nat} {s t : Str}
    (h : chapter_file_name i s = chapter_file_name j t) : i = j := by
  have := congrArg (List.takeWhile isAsciiDigit) h
  rw [chapter_file_name_takeWhile, chapter_file_name_takeWhile] at this
  exact pad2_inj this

lemma saved_name_getD (chapters : List (Str × Str)) (k : Nat)
    (h : k < chapters.length) :
    ((save_chapters_files chapters).map Prod.fst).getD k [] =
      chapter_file_name (k + 1) (chapters.getD k ([], [])).1 := by
  rw [List.getD_eq_getElem?_getD]
  unfold save_chapters_files
  rw [List.map_map, List.getElem?_map, List.getElem?_range h]
  rfl

/-- C8: chapter files are numbered by 1-based position in the accepted
chapter list (a consecutive, gap-free, zero-padded sequence regardless of
how many source fragments were rejected earlier), and the resulting
filenames are pairwise distinct because each starts with its position. -/
theorem chapter_numbering (chapters : List (Str × Str)) :
    ((save_chapters_files chapters).map Prod.fst).length =
      chapters.length ∧
    (∀ k, (h : k < chapters.length) →
      ((save_chapters_files chapters).map Prod.fst).getD k [] =
        chapter_file_name (k + 1) (chapters.getD k ([], [])).1) ∧
    ((save_chapters_files chapters).map Prod.fst).Nodup := by
  refine ⟨by simp [save_chapters_files], saved_name_getD chapters, ?_⟩
  unfold save_chapters_files
  rw [List.map_map]
  apply List.Nodup.map_on ?_ (List.nodup_range _)
  intro x _ y _ hf
  have : x + 1 = y + 1 := chapter_file_name_inj hf
  omega

/-- C8 witness: two accepted chapters with identical titles still get the
distinct filenames `01_…` and `02_…`. -/
theorem chapter_numbering_w :
    ((save_chapters_files [("A".data, "x".data), ("A".data, "y".data)]).map
      Prod.fst).getD 0 [] = chapter_file_name 1 "A".data ∧
    ((save_chapters_files [("A".data, "x".data), ("A".data, "y".data)]).map
      Prod.fst).Nodup :=
  ⟨(chapter_numbering [("A".data, "x".data), ("A".data, "y".data)]).2.1 0
      (by decide),
   (chapter_numbering [("A".data, "x".data), ("A".data, "y".data)]).2.2⟩

/-- C9: for every chapter at position `k` (0-based; position `k+1`
1-based), the link target that `create_index_file` writes into the
`README.md` table of contents is identical to the filename under which
`save_chapters` writes that chapter: both are the zero-padded 2-digit
position, an underscore, the identically sanitized title, and `.md`. -/
theorem index_links_match (chapters : List (Str × Str)) (k : Nat)
    (h : k < chapters.length) :
    index_link_name (k + 1) (chapters.getD k ([], [])).1 =
      ((save_chapters_files chapters).map Prod.fst).getD k [] := by
  rw [saved_name_getD chapters k h]
  rfl

/-- C9 witness: with one chapter titled `Chapter 1`, the table-of-contents
link and the saved filename agree. -/
theorem index_links_match_w :
    index_link_name 1
        (([(("Chapter 1".data : Str), ("x".data : Str))].getD 0 ([], [])).1) =
      ((save_chapters_files [("Chapter 1".data, "x".data)]).map
        Prod.fst).getD 0 [] :=
  index_links_match [("Chapter 1".data, "x".data)] 0 (by decide)

/-- C3 witness: on a concrete title with unsafe characters, the sanitizer
result contains no banned character (checked at the member `'a'`) and equals
the expected sanitized string. -/
theorem clean_filename_spec_w :
    badChar 'a' = false ∧ clean_filename "a:b".data = "a_b".data :=
  ⟨(clean_filename_spec "a:b".data).1 'a' (by decide), by decide⟩
